import Mathlib

/-!
Verification development for the coderag retrieval engine.

Shallow embedding of the Rust sources under `src/`:
* `f32` values are modelled as exact rationals (`ℚ`) or reals (`ℝ`); the
  square-root and natural-logarithm intrinsics are passed explicitly where a
  function needs them, so the same embedding can be instantiated with
  `Real.sqrt` / `Real.log` for analytic statements and with exact rational
  arithmetic on inputs where `f32` computes exactly.
* Rust `String` is a `List Char`; where the source measures or slices byte
  positions, UTF-8 byte widths are computed explicitly.
* `SystemTime` is a natural number (duration since the epoch);
  `checked_sub(..).unwrap_or(UNIX_EPOCH)` is truncated subtraction on `Nat`.
* `HashSet` / `HashMap` / `VecDeque` / `BinaryHeap` are modelled by lists;
  hash-map iteration order is modelled as insertion order (the Rust order is
  unspecified), and `BinaryHeap::pop` removes a maximal element.
* Randomness (the HNSW level generator) and wall-clock `now` are passed in as
  arguments.
-/

set_option maxRecDepth 10000

namespace CodeRag

/-- Rust `String` / `&str`, modelled as its list of Unicode scalar values. -/
abbrev Str := List Char

/-- `ContentType` from `src/vectordb/types.rs`. -/
inductive ContentType where
  | documentation
  | codeExample
  | tutorial
  | reference
  | blogPost
  | other
  deriving DecidableEq, Repr

/-- `DocumentMetadata` from `src/vectordb/types.rs`; `last_updated` is an
optional timestamp (seconds since the epoch). -/
structure DocumentMetadata where
  contentType : ContentType
  language : Option Str
  lastUpdated : Option Nat
  tags : List Str
  deriving DecidableEq, Repr

/-- `Document` from `src/vectordb/types.rs` (the Rust field `section` is
named `docSection` here because `section` is a Lean keyword). -/
structure Document where
  id : Str
  content : Str
  url : Str
  title : Option Str
  docSection : Option Str
  metadata : DocumentMetadata
  deriving DecidableEq, Repr

/-- `VectorEntry` from `src/vectordb/types.rs`; the embedding is a list of
scalars of type `α` (the model of `f32`). -/
structure VectorEntry (α : Type) where
  id : Str
  document : Document
  vector : List α
  indexedAt : Nat
  deriving DecidableEq, Repr

/-- The entry list of `VectorStorage` (`src/vectordb/storage.rs`).  The path
and the bookkeeping metadata (version, timestamps, modified flag) play no role
in the claims about entry mutation and are not modelled. -/
structure StorageState (α : Type) where
  entries : List (VectorEntry α)
  deriving DecidableEq, Repr

/-- `VectorStorage::add_document` (`src/vectordb/storage.rs` lines 113-128).
It builds the entry and pushes it; there is no duplicate-id and no dimension
check, and the returned `Result` is always `Ok(id)`, so the model returns the
id directly. -/
def VectorStorage.addDocument (s : StorageState α) (doc : Document)
    (embedding : List α) (now : Nat) : StorageState α × Str :=
  let entry : VectorEntry α :=
    { id := doc.id, document := doc, vector := embedding, indexedAt := now }
  ({ entries := s.entries ++ [entry] }, doc.id)

/-- `VectorStorage::remove_documents_by_source` (`src/vectordb/storage.rs`
lines 157-168): retain entries whose `document.url` differs from the argument
(exact string equality) and return how many were dropped. -/
def VectorStorage.removeDocumentsBySource (s : StorageState α) (sourceUrl : Str) :
    StorageState α × Nat :=
  let kept := s.entries.filter (fun e => decide (e.document.url ≠ sourceUrl))
  ({ entries := kept }, s.entries.length - kept.length)

/-- The update time used by the age purge: `metadata.last_updated` when
present, else `indexed_at` (`src/vectordb/storage.rs` line 181). -/
def updatedTime (e : VectorEntry α) : Nat :=
  e.document.metadata.lastUpdated.getD e.indexedAt

/-- `VectorStorage::remove_documents_by_age` (`src/vectordb/storage.rs` lines
170-189).  `cutoff = now.checked_sub(days*24*60*60).unwrap_or(UNIX_EPOCH)` is
truncated `Nat` subtraction; an entry is retained iff its update time is
strictly greater than the cutoff. -/
def VectorStorage.removeDocumentsByAge (s : StorageState α) (maxAgeDays now : Nat) :
    StorageState α × Nat :=
  let cutoffTime := now - maxAgeDays * 24 * 60 * 60
  let kept := s.entries.filter (fun e => decide (cutoffTime < updatedTime e))
  ({ entries := kept }, s.entries.length - kept.length)

/-- The two error cases of `HnswIndex::add` (`src/vectordb/indexing.rs`). -/
inductive VErr where
  | dimensionMismatch (expected got : Nat)
  | duplicateId (id : Str)
  deriving DecidableEq, Repr

/-- Projection of `HnswIndex` (`src/vectordb/indexing.rs`) onto the fields the
entry-point claims are about: the set of inserted nodes with their drawn
levels (in insertion order), the entry point, the recorded max level and the
configured dimension.  The per-level neighbour lists are elided: no statement
in `connect_node` other than its final conditional reads or writes
`entry_point` / `max_level`, and the neighbour lists never feed back into
them. -/
structure HnswState where
  nodes : List (Str × Nat)
  entryPoint : Option Str
  maxLevel : Nat
  dimension : Nat
  deriving DecidableEq, Repr

/-- `HnswIndex::new` (`src/vectordb/indexing.rs` lines 139-160). -/
def HnswIndex.new (dimension : Nat) : HnswState :=
  { nodes := [], entryPoint := none, maxLevel := 0, dimension := dimension }

/-- Effect of `HnswIndex::connect_node` (`src/vectordb/indexing.rs` lines
241-303) on the modelled fields: the greedy descent and the neighbour wiring
touch only the elided neighbour lists; the function ends with
`if level > self.max_level { self.entry_point = Some(id); self.max_level = level }`. -/
def HnswIndex.connectNode (s : HnswState) (id : Str) (level : Nat) : HnswState :=
  if s.maxLevel < level then { s with entryPoint := some id, maxLevel := level } else s

/-- `HnswIndex::add` (`src/vectordb/indexing.rs` lines 192-238): dimension
check, duplicate-id check, then - before `connect_node` runs - the statement
`if level > self.max_level && !is_first_node { self.max_level = level; }`,
node insertion, the first-node special case, and finally `connect_node`.  The
drawn random level is an argument. -/
def HnswIndex.add (s : HnswState) (id : Str) (vector : List α) (level : Nat) :
    HnswState × Except VErr Unit :=
  if vector.length ≠ s.dimension then
    (s, Except.error (VErr.dimensionMismatch s.dimension vector.length))
  else if decide (id ∈ s.nodes.map Prod.fst) then
    (s, Except.error (VErr.duplicateId id))
  else
    let isFirstNode := s.nodes.isEmpty
    let maxLevel1 := if s.maxLevel < level ∧ ¬isFirstNode then level else s.maxLevel
    let s1 : HnswState := { s with nodes := s.nodes ++ [(id, level)], maxLevel := maxLevel1 }
    if isFirstNode then
      ({ s1 with entryPoint := some id, maxLevel := level }, Except.ok ())
    else
      (HnswIndex.connectNode s1 id level, Except.ok ())

/-- `VectorDatabase` (`src/vectordb/mod.rs`): storage plus optional HNSW
index (the optional quantizer is independent of the claims about `add`). -/
structure DbState (α : Type) where
  storage : StorageState α
  index : Option HnswState
  deriving DecidableEq, Repr

/-- `VectorDatabase::add_document` (`src/vectordb/mod.rs` lines 112-124):
first push into storage, then - if an index is configured - `index.add`,
whose error is propagated by `?` while the storage keeps the new entry. -/
def VectorDatabase.addDocument (db : DbState α) (doc : Document)
    (embedding : List α) (now level : Nat) : DbState α × Except VErr Str :=
  let step := VectorStorage.addDocument db.storage doc embedding now
  match db.index with
  | none => ({ storage := step.1, index := none }, Except.ok step.2)
  | some idx =>
    match HnswIndex.add idx step.2 embedding level with
    | (idx1, Except.ok ()) => ({ storage := step.1, index := some idx1 }, Except.ok step.2)
    | (idx1, Except.error e) => ({ storage := step.1, index := some idx1 }, Except.error e)

/-- A throwaway metadata value for concrete test documents. -/
def plainMeta : DocumentMetadata :=
  { contentType := ContentType.documentation, language := none,
    lastUpdated := none, tags := [] }

/-- A concrete document with id "a". -/
def docA : Document :=
  { id := ['a'], content := ['x'], url := ['u'], title := none,
    docSection := none, metadata := plainMeta }

/-- A stored entry with id "a" and a 1-dimensional vector. -/
def entryA : VectorEntry ℚ :=
  { id := ['a'], document := docA, vector := [0], indexedAt := 0 }

/-- A database (no index configured) that already contains id "a". -/
def dbC1 : DbState ℚ := { storage := { entries := [entryA] }, index := none }

/-- C1, counterexample.  The store already contains an entry with id "a" and
the new embedding `[0, 0]` does not even match the stored dimension, yet
`add_document` returns `Ok("a")` and appends a second entry with the same id:
without an index there is no duplicate-id and no dimension check at all, so
the call neither errors nor leaves the entries unchanged. -/
theorem addDocument_duplicate_id_accepted :
    (VectorDatabase.addDocument dbC1 docA [0, 0] 5 0).2 = Except.ok ['a'] ∧
      (VectorDatabase.addDocument dbC1 docA [0, 0] 5 0).1.storage.entries.length = 2 ∧
      ((VectorDatabase.addDocument dbC1 docA [0, 0] 5 0).1.storage.entries.map
        (fun e => e.id)) = [['a'], ['a']] := by
  refine ⟨rfl, rfl, rfl⟩

/-- C1, amended.  `add_document` never validates at the storage level: for
every state it appends exactly one entry built from its arguments (even when
the id collides or the dimension differs, and even when a configured index
rejects the insert), and when no index is configured the call always returns
`Ok(document.id)`. -/
theorem addDocument_always_appends {α : Type} (doc : Document) (emb : List α)
    (now level : Nat) (entries : List (VectorEntry α)) (idx : Option HnswState) :
    ((VectorDatabase.addDocument ⟨⟨entries⟩, idx⟩ doc emb now level).1.storage.entries
        = entries ++ [{ id := doc.id, document := doc, vector := emb, indexedAt := now }]) ∧
      ((VectorDatabase.addDocument ⟨⟨entries⟩, none⟩ doc emb now level).2
        = Except.ok doc.id) := by
  constructor
  · cases idx with
    | none => rfl
    | some i =>
      unfold VectorDatabase.addDocument
      rcases h : HnswIndex.add i doc.id emb level with ⟨i1, r⟩
      cases r with
      | ok u => cases u; simp [h, VectorStorage.addDocument]
      | error e => simp [h, VectorStorage.addDocument]
  · rfl

/-- C10, confirmed.  `remove_documents_by_source(u)` keeps the surviving
entries unchanged and in their original relative order (a sublist of the old
entries), a surviving entry is exactly an old entry whose `document.url` is
not string-equal to `u` (exact equality, not substring matching), and the
returned count is the number of entries whose url equals `u`. -/
theorem removeDocumentsBySource_spec {α : Type} (entries : List (VectorEntry α)) (u : Str) :
    ((VectorStorage.removeDocumentsBySource (⟨entries⟩ : StorageState α) u).1.entries.Sublist
        entries) ∧
      (∀ e : VectorEntry α,
        e ∈ (VectorStorage.removeDocumentsBySource (⟨entries⟩ : StorageState α) u).1.entries ↔
          e ∈ entries ∧ e.document.url ≠ u) ∧
      ((VectorStorage.removeDocumentsBySource (⟨entries⟩ : StorageState α) u).2
        = (entries.filter (fun e => decide (e.document.url = u))).length) := by
  refine ⟨List.filter_sublist _, ?_, ?_⟩
  · intro e
    simp [VectorStorage.removeDocumentsBySource, List.mem_filter]
  · show entries.length - (entries.filter _).length = _
    induction entries with
    | nil => rfl
    | cons a l ih =>
      by_cases h : a.document.url = u
      · simpa [List.filter, h, Nat.succ_sub (List.length_filter_le _ l)] using ih
      · simpa [List.filter, h] using ih

/-- An entry whose `last_updated` lands exactly on the purge cutoff. -/
def entryC7 : VectorEntry ℚ :=
  { id := ['e'],
    document := { docA with metadata := { plainMeta with lastUpdated := some 86400 } },
    vector := [0], indexedAt := 0 }

/-- C7, counterexample.  With `now = 172800` and `days = 1` the cutoff is
`86400`; the single entry's update time equals the cutoff, so it is *not*
older than the cutoff, yet the call removes it and returns 1. -/
theorem removeDocumentsByAge_boundary :
    (VectorStorage.removeDocumentsByAge (⟨[entryC7]⟩ : StorageState ℚ) 1 172800).2 = 1 ∧
      (VectorStorage.removeDocumentsByAge (⟨[entryC7]⟩ : StorageState ℚ) 1 172800).1.entries
        = [] ∧
      updatedTime entryC7 = 172800 - 1 * 24 * 60 * 60 := by
  refine ⟨rfl, rfl, rfl⟩

/-- C7, amended.  With `cutoff = now - days*86400` (epoch on underflow, i.e.
truncated subtraction), exactly the entries whose update time is older than
*or equal to* the cutoff are removed: the survivors are unchanged and keep
their order, a survivor is exactly an old entry with update time strictly
greater than the cutoff, and the returned count is the number of entries with
update time `≤ cutoff`. -/
theorem removeDocumentsByAge_spec {α : Type} (entries : List (VectorEntry α))
    (days now : Nat) :
    ((VectorStorage.removeDocumentsByAge (⟨entries⟩ : StorageState α) days now).1.entries.Sublist
        entries) ∧
      (∀ e : VectorEntry α,
        e ∈ (VectorStorage.removeDocumentsByAge (⟨entries⟩ : StorageState α) days now).1.entries ↔
          e ∈ entries ∧ now - days * 24 * 60 * 60 < updatedTime e) ∧
      ((VectorStorage.removeDocumentsByAge (⟨entries⟩ : StorageState α) days now).2
        = (entries.filter (fun e => decide (updatedTime e ≤ now - days * 24 * 60 * 60))).length) := by
  refine ⟨List.filter_sublist _, ?_, ?_⟩
  · intro e
    simp [VectorStorage.removeDocumentsByAge, List.mem_filter]
  · show entries.length - (entries.filter _).length = _
    induction entries with
    | nil => rfl
    | cons a l ih =>
      by_cases h : now - days * 24 * 60 * 60 < updatedTime a
      · have h2 : ¬ updatedTime a ≤ now - days * 24 * 60 * 60 := not_le.mpr h
        simpa [List.filter, h, h2] using ih
      · have h2 : updatedTime a ≤ now - days * 24 * 60 * 60 := not_lt.mp h
        simpa [List.filter, h, h2, Nat.succ_sub (List.length_filter_le _ l)] using ih

/-- C3, failing run.  Insert node "a" at drawn level 0, then node "b" at
drawn level 1.  Because `HnswIndex::add` raises `self.max_level` to the new
level *before* calling `connect_node`, the guard `level > self.max_level` at
the end of `connect_node` is always false, so the entry point is never moved
off the first inserted node: after the second insert the recorded max level
is 1 but the entry point is still "a", whose level is 0 - contradicting both
the claim and the source's own comments ("Entry point (highest level node)",
"Update entry point if new node is at a higher level"). -/
theorem hnswAdd_entry_point_not_updated :
    ((HnswIndex.add (HnswIndex.add (HnswIndex.new 1) ['a'] ([0] : List ℚ) 0).1
        ['b'] ([0] : List ℚ) 1).1.maxLevel = 1) ∧
      ((HnswIndex.add (HnswIndex.add (HnswIndex.new 1) ['a'] ([0] : List ℚ) 0).1
        ['b'] ([0] : List ℚ) 1).1.entryPoint = some ['a']) ∧
      ((HnswIndex.add (HnswIndex.add (HnswIndex.new 1) ['a'] ([0] : List ℚ) 0).1
        ['b'] ([0] : List ℚ) 1).1.nodes = [(['a'], 0), (['b'], 1)]) := by
  refine ⟨by decide, by decide, by decide⟩

/-- UTF-8 byte width of a character (Rust `char::len_utf8`). -/
def utf8Width (c : Char) : Nat :=
  if c.toNat < 0x80 then 1 else if c.toNat < 0x800 then 2
  else if c.toNat < 0x10000 then 3 else 4

/-- Rust `str::len`: the UTF-8 byte length. -/
def utf8Len (s : Str) : Nat := (s.map utf8Width).sum

/-- Rust byte slicing `&s[..n]`: `some` of the characters making up the first
`n` bytes when `n` lies on a character boundary, `none` when the slice would
panic ("byte index is not a char boundary"). -/
def takeBytes (s : Str) (n : Nat) : Option Str :=
  match s, n with
  | _, 0 => some []
  | [], _ + 1 => none
  | c :: t, m + 1 =>
    if utf8Width c ≤ m + 1 then (takeBytes t (m + 1 - utf8Width c)).map (fun r => c :: r)
    else none

/-- `Document::preview` (`src/vectordb/types.rs` lines 90-96):
`let end = self.content.len().min(200); &self.content[..end]`.
The result is `none` exactly when the byte slice panics. -/
def Document.preview (d : Document) : Option Str :=
  takeBytes d.content (min (utf8Len d.content) 200)

/-- A document whose content is 67 euro signs: 201 UTF-8 bytes, and byte 200
falls inside the final 3-byte character. -/
def docEuro : Document :=
  { id := ['p'], content := List.replicate 67 '€', url := [], title := none,
    docSection := none, metadata := plainMeta }

/-- C9, failing run.  On a 201-byte content made of 3-byte characters,
`preview` slices at byte `min(201, 200) = 200`, which is not a character
boundary, so `&content[..200]` panics instead of returning a prefix. -/
theorem preview_panics_on_multibyte :
    Document.preview docEuro = none ∧ utf8Len docEuro.content = 201 := by
  refine ⟨by decide, by decide⟩

/-- Error cases of the quantizer calibration (`VectorQuantizer::initialize`). -/
inductive QErr where
  | emptyVectorSet
  | dimensionMismatch (expected got : Nat)
  deriving DecidableEq, Repr

/-- Exact value of the `f32::MAX` literal used to seed the min fold. -/
def f32Max : ℚ := (2 - (1 : ℚ) / 2 ^ 23) * 2 ^ 127

/-- Exact value of `f32::MIN`. -/
def f32Min : ℚ := -f32Max

/-- The `1e-6` threshold of the zero-range test (as an exact decimal). -/
def eps6 : ℚ := 1 / 1000000

/-- The `1e-5` nudge added to a degenerate `max_values[i]`. -/
def eps5 : ℚ := 1 / 100000

/-- `VectorQuantizer::initialize` for `Scalar8Bit`
(`src/vectordb/quantization.rs` lines 52-113), renamed `calibrate` here:
reject an empty vector set or a dimension mismatch, fold per-dimension
minima/maxima starting from `f32::MAX` / `f32::MIN`, then nudge
`max_values[i]` by `1e-5` wherever `|max - min| < 1e-6`.  Returns the
calibrated `(min_values, max_values)`. -/
def VectorQuantizer.calibrate (dimension : Nat) (vectors : List (List ℚ)) :
    Except QErr (List ℚ × List ℚ) :=
  if vectors.isEmpty then Except.error QErr.emptyVectorSet
  else
    match vectors.find? (fun v => decide (v.length ≠ dimension)) with
    | some v => Except.error (QErr.dimensionMismatch dimension v.length)
    | none =>
      let minValues := (List.range dimension).map
        (fun i => vectors.foldl (fun m v => min m (v.getD i 0)) f32Max)
      let maxValues := (List.range dimension).map
        (fun i => vectors.foldl (fun m v => max m (v.getD i 0)) f32Min)
      let maxValues1 := (minValues.zip maxValues).map
        (fun p => if |p.2 - p.1| < eps6 then p.2 + eps5 else p.2)
      Except.ok (minValues, maxValues1)

/-- Rust `f32::round`: round half away from zero (on `ℚ`; `round` on a
nonnegative argument agrees with Lean's round-half-up). -/
def roundTiesAway (q : ℚ) : ℤ := if 0 ≤ q then round q else -round (-q)

/-- The saturating `as u8` cast applied to the rounded value. -/
def toU8 (z : ℤ) : ℤ := max 0 (min 255 z)

/-- `VectorQuantizer::quantize`, `Scalar8Bit` branch
(`src/vectordb/quantization.rs` lines 116-181): dimension check, then per
dimension `quantized = ((val - min) / range * 255).round() as u8`, with `0`
pushed when `range <= 0`.  The quantization cache (only consulted when an id
is supplied) is not modelled. -/
def VectorQuantizer.quantize (dimension : Nat) (minValues maxValues : List ℚ)
    (v : List ℚ) : Except QErr (List ℤ) :=
  if v.length ≠ dimension then
    Except.error (QErr.dimensionMismatch dimension v.length)
  else
    Except.ok ((List.range v.length).map (fun i =>
      let rng := maxValues.getD i 0 - minValues.getD i 0
      if rng ≤ 0 then 0
      else toU8 (roundTiesAway ((v.getD i 0 - minValues.getD i 0) / rng * 255))))

/-- `VectorQuantizer::dequantize`, `Scalar8Bit` branch
(`src/vectordb/quantization.rs` lines 183-243): byte-length check, then per
dimension `val = (byte as f32 / 255) * range + min`. -/
def VectorQuantizer.dequantize (dimension : Nat) (minValues maxValues : List ℚ)
    (bytes : List ℤ) : Except QErr (List ℚ) :=
  if bytes.length ≠ dimension then
    Except.error (QErr.dimensionMismatch dimension bytes.length)
  else
    Except.ok ((List.range bytes.length).map (fun i =>
      let rng := maxValues.getD i 0 - minValues.getD i 0
      ((bytes.getD i 0 : ℚ) / 255) * rng + minValues.getD i 0))

/-- The claim's error budget: `max over d of (max[d] - min[d]) / 255`. -/
def maxRangeQuot (minValues maxValues : List ℚ) : ℚ :=
  ((minValues.zip maxValues).map (fun p => (p.2 - p.1) / 255)).foldr max 0

/-- A left fold of `min` never exceeds its seed. -/
theorem foldl_min_le_seed {β : Type} [LinearOrder β] :
    ∀ (L : List β) (a : β), L.foldl min a ≤ a := by
  intro L
  induction L with
  | nil => intro a; simp
  | cons c t ih =>
    intro a
    exact le_trans (ih (min a c)) (min_le_left a c)

/-- A left fold of `min` is a lower bound for every member. -/
theorem foldl_min_le_of_mem {β : Type} [LinearOrder β] :
    ∀ (L : List β) (a x : β), x ∈ L → L.foldl min a ≤ x := by
  intro L
  induction L with
  | nil => intro a x hx; cases hx
  | cons c t ih =>
    intro a x hx
    rcases List.mem_cons.mp hx with h | h
    · subst h
      exact le_trans (foldl_min_le_seed t (min a x)) (min_le_right a x)
    · exact ih (min a c) x h

/-- A left fold of `max` is at least its seed. -/
theorem seed_le_foldl_max {β : Type} [LinearOrder β] :
    ∀ (L : List β) (a : β), a ≤ L.foldl max a := by
  intro L
  induction L with
  | nil => intro a; simp
  | cons c t ih =>
    intro a
    exact le_trans (le_max_left a c) (ih (max a c))

/-- A left fold of `max` is an upper bound for every member. -/
theorem le_foldl_max_of_mem {β : Type} [LinearOrder β] :
    ∀ (L : List β) (a x : β), x ∈ L → x ≤ L.foldl max a := by
  intro L
  induction L with
  | nil => intro a x hx; cases hx
  | cons c t ih =>
    intro a x hx
    rcases List.mem_cons.mp hx with h | h
    · subst h
      exact le_trans (le_max_right a x) (seed_le_foldl_max t (max a x))
    · exact ih (max a c) x h

/-- A right fold of `max` is an upper bound for every member. -/
theorem le_foldr_max_of_mem {β : Type} [LinearOrder β] :
    ∀ (L : List β) (b x : β), x ∈ L → x ≤ L.foldr max b := by
  intro L
  induction L with
  | nil => intro b x hx; cases hx
  | cons c t ih =>
    intro b x hx
    rcases List.mem_cons.mp hx with h | h
    · subst h; exact le_max_left _ _
    · exact le_trans (ih b x h) (le_max_right _ _)

/-- What a successful calibration guarantees: the returned min/max arrays
have the configured length and, thanks to the `1e-5` nudge of degenerate
dimensions, every per-dimension range is strictly positive. -/
theorem calibrate_ranges (dimension : Nat) (vectors : List (List ℚ))
    (mins maxs : List ℚ)
    (hcal : VectorQuantizer.calibrate dimension vectors = Except.ok (mins, maxs)) :
    mins.length = dimension ∧ maxs.length = dimension ∧
      ∀ i, i < dimension → 0 < maxs.getD i 0 - mins.getD i 0 := by
  cases vectors with
  | nil => simp [VectorQuantizer.calibrate] at hcal
  | cons v0 rest =>
    rw [VectorQuantizer.calibrate] at hcal
    simp only [List.isEmpty_cons, Bool.false_eq_true, if_false] at hcal
    rcases hf : List.find? (fun v => decide (v.length ≠ dimension)) (v0 :: rest) with _ | v
    · rw [hf] at hcal
      simp only [Except.ok.injEq, Prod.mk.injEq] at hcal
      obtain ⟨hmins, hmaxs⟩ := hcal
      subst hmins; subst hmaxs
      have hlmin : ((List.range dimension).map
          (fun i => (v0 :: rest).foldl (fun m v => min m (v.getD i 0)) f32Max)).length
            = dimension := by simp
      refine ⟨by simp, by simp, ?_⟩
      intro i hi
      have hi1 : i < ((List.range dimension).map
          (fun i => (v0 :: rest).foldl (fun m v => min m (v.getD i 0)) f32Max)).length := by
        simpa using hi
      have hi2 : i < (((List.range dimension).map
          (fun i => (v0 :: rest).foldl (fun m v => min m (v.getD i 0)) f32Max)).zip
            ((List.range dimension).map
              (fun i => (v0 :: rest).foldl (fun m v => max m (v.getD i 0)) f32Min))).length := by
        simpa using hi
      rw [List.getD_eq_getElem _ _ hi1, List.getD_eq_getElem _ _ (by simpa using hi)]
      simp only [List.getElem_map, List.getElem_zip, List.getElem_range]
      set A := (v0 :: rest).foldl (fun m v => min m (v.getD i 0)) f32Max with hA
      set B := (v0 :: rest).foldl (fun m v => max m (v.getD i 0)) f32Min with hB
      have hAB : A ≤ B := by
        have hA' : A ≤ v0.getD i 0 := by
          rw [hA, ← List.foldl_map (fun v => v.getD i 0) min (v0 :: rest) f32Max]
          exact foldl_min_le_of_mem _ _ _ (List.mem_map_of_mem _ (List.mem_cons_self v0 rest))
        have hB' : v0.getD i 0 ≤ B := by
          rw [hB, ← List.foldl_map (fun v => v.getD i 0) max (v0 :: rest) f32Min]
          exact le_foldl_max_of_mem _ _ _ (List.mem_map_of_mem _ (List.mem_cons_self v0 rest))
        exact le_trans hA' hB'
      by_cases hn : |B - A| < eps6
      · rw [if_pos hn]
        have : (0 : ℚ) < eps5 := by norm_num [eps5]
        linarith
      · rw [if_neg hn]
        rw [abs_of_nonneg (by linarith)] at hn
        have : (0 : ℚ) < eps6 := by norm_num [eps6]
        linarith [not_lt.mp hn]
    · rw [hf] at hcal
      simp at hcal

/-- C6, confirmed.  For a `Scalar8Bit` quantizer calibrated on a non-empty
vector set and any vector of the configured dimension whose components lie
within the calibrated per-dimension ranges, quantize followed by dequantize
succeeds and reproduces every component to within
`max over d of (max[d] - min[d]) / 255 + 1e-5` (the actual error is at most
half of one quantization step, which is well inside the budget). -/
theorem quantizer_round_trip (dimension : Nat) (vectors : List (List ℚ))
    (mins maxs v : List ℚ)
    (hcal : VectorQuantizer.calibrate dimension vectors = Except.ok (mins, maxs))
    (hv : v.length = dimension)
    (hin : ∀ i, i < dimension → mins.getD i 0 ≤ v.getD i 0 ∧ v.getD i 0 ≤ maxs.getD i 0) :
    ∃ bytes w, VectorQuantizer.quantize dimension mins maxs v = Except.ok bytes ∧
      VectorQuantizer.dequantize dimension mins maxs bytes = Except.ok w ∧
      ∀ i, i < dimension →
        |v.getD i 0 - w.getD i 0| ≤ maxRangeQuot mins maxs + eps5 := by
  obtain ⟨hlmin, hlmax, hrng⟩ := calibrate_ranges dimension vectors mins maxs hcal
  set bytes := (List.range v.length).map (fun i =>
      let rng := maxs.getD i 0 - mins.getD i 0
      if rng ≤ 0 then 0
      else toU8 (roundTiesAway ((v.getD i 0 - mins.getD i 0) / rng * 255))) with hbytesdef
  have hblen : bytes.length = v.length := by simp [hbytesdef]
  set w := (List.range bytes.length).map (fun i =>
      let rng := maxs.getD i 0 - mins.getD i 0
      ((bytes.getD i 0 : ℚ) / 255) * rng + mins.getD i 0) with hwdef
  refine ⟨bytes, w, ?_, ?_, ?_⟩
  · unfold VectorQuantizer.quantize
    rw [if_neg (by omega)]
  · unfold VectorQuantizer.dequantize
    rw [if_neg (by rw [hblen]; omega)]
  · intro i hi
    have hiv : i < v.length := by omega
    have hib : i < bytes.length := by omega
    have hrpos := hrng i hi
    obtain ⟨hlo, hhi⟩ := hin i hi
    set mn := mins.getD i 0 with hmn
    set mx := maxs.getD i 0 with hmx
    set x := (v.getD i 0 - mn) / (mx - mn) * 255 with hx
    have hx0 : 0 ≤ x := by
      rw [hx]
      have h1 : 0 ≤ (v.getD i 0 - mn) / (mx - mn) := div_nonneg (by linarith) (by linarith)
      linarith
    have hx255 : x ≤ 255 := by
      rw [hx]
      have h1 : (v.getD i 0 - mn) / (mx - mn) ≤ 1 := by
        rw [div_le_one (by linarith)]
        linarith
      linarith
    have hr0 : (0 : ℤ) ≤ round x := by
      rw [round_eq]
      exact Int.le_floor.mpr (by push_cast; linarith)
    have hr255 : round x ≤ 255 := by
      rw [round_eq]
      have h256 : (⌊x + 1 / 2⌋ : ℤ) < 256 := Int.floor_lt.mpr (by push_cast; linarith)
      omega
    have htou : toU8 (roundTiesAway x) = round x := by
      rw [roundTiesAway, if_pos hx0]
      unfold toU8
      rw [min_eq_right hr255, max_eq_right hr0]
    have hbyte : (bytes.getD i 0 : ℤ) = round x := by
      rw [hbytesdef, List.getD_eq_getElem _ _ (by simpa using hiv)]
      simp only [List.getElem_map, List.getElem_range]
      rw [if_neg (by simp only [← hmn, ← hmx]; linarith), ← hmn, ← hmx, ← hx, htou]
    have hwi : w.getD i 0 = ((round x : ℚ) / 255) * (mx - mn) + mn := by
      rw [hwdef, List.getD_eq_getElem _ _ (by simpa using hib)]
      simp only [List.getElem_map, List.getElem_range]
      rw [List.getD_eq_getElem _ _ hib] at hbyte
      rw [List.getD_eq_getElem _ _ hib, hbyte, ← hmn, ← hmx]
    have hkey : v.getD i 0 - w.getD i 0 = (x - (round x : ℚ)) * ((mx - mn) / 255) := by
      rw [hwi, hx]
      have hne : mx - mn ≠ 0 := ne_of_gt hrpos
      field_simp
      ring
    have hone : |v.getD i 0 - w.getD i 0| ≤ (mx - mn) / 255 := by
      rw [hkey, abs_mul, abs_of_nonneg (show (0 : ℚ) ≤ (mx - mn) / 255 by positivity)]
      have h1 : |x - (round x : ℚ)| ≤ 1 / 2 := abs_sub_round x
      calc |x - (round x : ℚ)| * ((mx - mn) / 255)
          ≤ 1 * ((mx - mn) / 255) :=
            mul_le_mul_of_nonneg_right (by linarith) (by positivity)
        _ = (mx - mn) / 255 := one_mul _
    have hmem : (mx - mn) / 255 ≤ maxRangeQuot mins maxs := by
      unfold maxRangeQuot
      have hzi : i < (mins.zip maxs).length := by
        rw [List.length_zip, hlmin, hlmax]; omega
      have hzim : i < ((mins.zip maxs).map (fun p => (p.2 - p.1) / 255)).length := by
        simpa using hzi
      have hel : ((mins.zip maxs).map (fun p => (p.2 - p.1) / 255))[i]
          = (mx - mn) / 255 := by
        simp only [List.getElem_map, List.getElem_zip, hmn, hmx,
          List.getD_eq_getElem mins (0 : ℚ) (show i < mins.length by omega),
          List.getD_eq_getElem maxs (0 : ℚ) (show i < maxs.length by omega)]
      exact hel ▸ le_foldr_max_of_mem _ _ _ (List.getElem_mem _)
    have heps : (0 : ℚ) ≤ eps5 := by norm_num [eps5]
    linarith

/-- Concrete calibration for the C6 witness: dimension 1, vectors { [0], [2] }. -/
theorem calibrate_two_points :
    VectorQuantizer.calibrate 1 [[0], [2]] = Except.ok ([0], [2]) := by
  norm_num [VectorQuantizer.calibrate, List.find?, List.isEmpty, f32Max, f32Min, eps6, eps5,
    List.range_succ, List.getD, min_def, max_def, abs]

/-- The C6 witness vector [1] lies inside the calibrated ranges. -/
theorem in_range_two_points :
    ∀ i, i < 1 →
      ([(0 : ℚ)].getD i 0 ≤ [(1 : ℚ)].getD i 0 ∧ [(1 : ℚ)].getD i 0 ≤ [(2 : ℚ)].getD i 0) := by
  intro i hi
  interval_cases i
  exact ⟨by norm_num, by norm_num⟩

/-- C6 witness: a 1-dimensional quantizer calibrated on { [0], [2] }
round-trips v = [1] within the budget. -/
theorem quantizer_round_trip_witness :
    ∃ bytes w, VectorQuantizer.quantize 1 [0] [2] [1] = Except.ok bytes ∧
      VectorQuantizer.dequantize 1 [0] [2] bytes = Except.ok w ∧
      ∀ i, i < 1 →
        |([(1 : ℚ)].getD i 0 - w.getD i 0)| ≤ maxRangeQuot [0] [2] + eps5 :=
  quantizer_round_trip 1 [[0], [2]] [0] [2] [1] calibrate_two_points rfl in_range_two_points

/-- `p` is an initial segment of `s` (step of Rust `str::contains`). -/
def strStarts : Str → Str → Bool
  | [], _ => true
  | _ :: _, [] => false
  | c :: p, d :: s => c = d && strStarts p s

/-- Rust `str::contains(pattern)`: some suffix of `s` starts with `pat`. -/
def strContains (s pat : Str) : Bool :=
  strStarts pat s ||
    match s with
    | [] => false
    | _ :: t => strContains t pat

/-- Rust `str::trim`: drop whitespace from both ends. -/
def trimStr (s : Str) : Str :=
  ((s.dropWhile Char.isWhitespace).reverse.dropWhile Char.isWhitespace).reverse

/-- Split at every whitespace character (helper for `split_whitespace`). -/
def splitWsGo : Str → List Str
  | [] => [[]]
  | c :: t =>
    if c.isWhitespace then [] :: splitWsGo t
    else
      match splitWsGo t with
      | [] => [[c]]
      | w :: ws => (c :: w) :: ws

/-- Rust `str::split_whitespace`: split on whitespace, dropping empties. -/
def splitWs (s : Str) : List Str := (splitWsGo s).filter (fun w => ¬ w.isEmpty)

/-- Rust `str::split("\n\n")`: split at non-overlapping blank-line markers. -/
def splitBlank : Str → List Str
  | [] => [[]]
  | '\n' :: '\n' :: t => [] :: splitBlank t
  | c :: t =>
    match splitBlank t with
    | [] => [[c]]
    | w :: ws => (c :: w) :: ws

/-- Model of `DefaultHasher` (SipHash-1-3 with zero keys): an injective
base-2^21 encoding of the character sequence.  The real hasher is a fixed
64-bit function; the dedup logic relies only on "equal strings hash equal"
and, on the concrete strings appearing here, "different strings hash
differently", which the encoding realises exactly. -/
def stableHash (s : Str) : ℕ := s.foldl (fun a c => a * 2097152 + (c.toNat + 1)) 0

/-- `EnhancedChunker::hash_content` (`src/vectordb/chunking.rs` lines
401-408): the argument - the already *trimmed* chunk content - is hashed
as-is, with no lowercasing and no whitespace normalisation. -/
def EnhancedChunker.hashContent (content : Str) : ℕ := stableHash content

/-- The normalisation inside `TextChunker::calculate_content_hash`:
`content.trim().to_lowercase().split_whitespace().join(" ")`. -/
def normalizeContent (content : Str) : Str :=
  List.intercalate [' '] (splitWs ((trimStr content).map Char.toLower))

/-- `TextChunker::calculate_content_hash` (`src/crawler/chunker.rs` lines
149-164): hash of the lowercase whitespace-normalised content. -/
def TextChunker.calculateContentHash (content : Str) : ℕ :=
  stableHash (normalizeContent content)

/-- The dedup state of `EnhancedChunker`: its `seen_content_hashes` set. -/
structure ChunkerState where
  seenContentHashes : List ℕ
  deriving DecidableEq, Repr

/-- `Chunk` from `src/vectordb/chunking.rs`. -/
structure Chunk where
  content : Str
  heading : Option Str
  headingContext : Option Str
  hasCode : Bool
  position : ℕ
  contentHash : ℕ
  deriving DecidableEq, Repr

/-- `EnhancedChunker::create_chunk_if_unique` (`src/vectordb/chunking.rs`
lines 326-358): trim; drop empty; hash the trimmed content; skip if the hash
was seen; otherwise record the hash and emit the chunk (code detection via
the three literal markers). -/
def createChunkIfUnique (st : ChunkerState) (content : Str) (position : ℕ) :
    Option Chunk × ChunkerState :=
  let trimmed := trimStr content
  if trimmed.isEmpty then (none, st)
  else
    let contentHash := EnhancedChunker.hashContent trimmed
    if decide (contentHash ∈ st.seenContentHashes) then (none, st)
    else
      let hasCode := strContains trimmed ['`', '`', '`'] ||
        strContains trimmed [' ', ' ', ' ', ' '] || strContains trimmed ['\t']
      (some { content := trimmed, heading := none, headingContext := none,
              hasCode := hasCode, position := position, contentHash := contentHash },
        { seenContentHashes := contentHash :: st.seenContentHashes })

/-- The loop state of `chunk_semantic_boundaries`: emitted chunks, the
accumulator string, the running position, and the dedup state. -/
structure SemAcc where
  chunks : List Chunk
  current : Str
  position : ℕ
  st : ChunkerState
  deriving DecidableEq, Repr

/-- One `create_chunk_if_unique` call on the accumulator followed by
`current_chunk = String::new()` (the clearing happens whether or not a chunk
was emitted; `position` advances only on emission). -/
def flushCurrent (acc : SemAcc) : SemAcc :=
  match createChunkIfUnique acc.st acc.current acc.position with
  | (some c, st1) =>
    { chunks := acc.chunks ++ [c], current := [], position := acc.position + 1, st := st1 }
  | (none, st1) =>
    { chunks := acc.chunks, current := [], position := acc.position, st := st1 }

/-- Second half of the paragraph loop body: append the paragraph to the
accumulator (with a `"\n\n"` separator when it is non-empty), then flush
immediately when the paragraph alone reaches `max_size`
(`src/vectordb/chunking.rs` lines 184-197). -/
def semAppend (acc : SemAcc) (paragraph : Str) (maxSize : ℕ) : SemAcc :=
  if maxSize ≤ utf8Len paragraph then
    flushCurrent { acc with current :=
      if acc.current.isEmpty then paragraph
      else acc.current ++ '\n' :: '\n' :: paragraph }
  else
    { acc with current :=
      if acc.current.isEmpty then paragraph
      else acc.current ++ '\n' :: '\n' :: paragraph }

/-- The body of the paragraph loop of `chunk_semantic_boundaries`
(`src/vectordb/chunking.rs` lines 165-198): skip blank paragraphs; flush when
appending would exceed `max_size` (and the accumulator has reached
`min_size`); then `semAppend`.  Lengths are UTF-8 byte lengths, as in the
Rust `len()`. -/
def semStep (maxSize minSize : ℕ) (acc : SemAcc) (paragraph : Str) : SemAcc :=
  if (trimStr paragraph).isEmpty then acc
  else
    semAppend
      (if ¬ acc.current.isEmpty ∧ maxSize < utf8Len acc.current + utf8Len paragraph + 2
          ∧ minSize ≤ utf8Len acc.current then
        flushCurrent acc
      else acc) paragraph maxSize

/-- Tail of `chunk_semantic_boundaries` (`src/vectordb/chunking.rs` lines
200-207): flush a final non-empty accumulator of at least `min_size`. -/
def chunkFinish (acc : SemAcc) (minSize : ℕ) : List Chunk × ChunkerState :=
  if ¬ acc.current.isEmpty ∧ minSize ≤ utf8Len acc.current then
    ((flushCurrent acc).chunks, (flushCurrent acc).st)
  else (acc.chunks, acc.st)

/-- `EnhancedChunker::chunk_text` with the `SemanticBoundaries` strategy
(`src/vectordb/chunking.rs` lines 83-96 dispatching to lines 152-208): split
into paragraphs, run the loop, then flush a final accumulator of at least
`min_size`.  (The fixed-size and heading-based strategies route every
emission through the same `create_chunk_if_unique`.) -/
def EnhancedChunker.chunkTextSemantic (st : ChunkerState) (text : Str)
    (maxSize minSize : ℕ) : List Chunk × ChunkerState :=
  chunkFinish ((splitBlank text).foldl (semStep maxSize minSize)
    { chunks := [], current := [], position := 0, st := st }) minSize

/-- A sequence of `chunk_text` calls against one chunker instance,
concatenating everything it ever emits. -/
def chunkCalls (st : ChunkerState) : List (Str × ℕ × ℕ) → List Chunk × ChunkerState
  | [] => ([], st)
  | (t, mx, mn) :: rest =>
    let r := EnhancedChunker.chunkTextSemantic st t mx mn
    let r2 := chunkCalls r.2 rest
    (r.1 ++ r2.1, r2.2)

/-- A proper emission run from `st` to `st'` producing `chunks`: emitted
hashes are pairwise distinct, recorded in `st'`, absent from `st`, and each
is the hash of the chunk's own (trimmed) content; the seen-set only grows. -/
def ChunkRun (st : ChunkerState) (chunks : List Chunk) (st' : ChunkerState) : Prop :=
  (chunks.map (fun c => c.contentHash)).Nodup ∧
    (∀ c ∈ chunks, c.contentHash ∈ st'.seenContentHashes ∧
      c.contentHash ∉ st.seenContentHashes ∧
      c.contentHash = EnhancedChunker.hashContent c.content) ∧
    (∀ h ∈ st.seenContentHashes, h ∈ st'.seenContentHashes)

theorem ChunkRun.refl (st : ChunkerState) : ChunkRun st [] st :=
  ⟨List.nodup_nil, by simp, fun _ h => h⟩

theorem ChunkRun.comp {st st1 st2 : ChunkerState} {c1 c2 : List Chunk}
    (h1 : ChunkRun st c1 st1) (h2 : ChunkRun st1 c2 st2) :
    ChunkRun st (c1 ++ c2) st2 := by
  obtain ⟨hn1, hm1, hg1⟩ := h1
  obtain ⟨hn2, hm2, hg2⟩ := h2
  refine ⟨?_, ?_, fun h hh => hg2 h (hg1 h hh)⟩
  · rw [List.map_append, List.nodup_append]
    refine ⟨hn1, hn2, ?_⟩
    intro a ha hb
    obtain ⟨ca, hca, hcaeq⟩ := List.mem_map.mp ha
    obtain ⟨cb, hcb, hcbeq⟩ := List.mem_map.mp hb
    have hin1 : a ∈ st1.seenContentHashes := hcaeq ▸ (hm1 ca hca).1
    have hout1 : a ∉ st1.seenContentHashes := hcbeq ▸ (hm2 cb hcb).2.1
    exact hout1 hin1
  · intro c hc
    rcases List.mem_append.mp hc with h | h
    · exact ⟨hg2 _ (hm1 c h).1, (hm1 c h).2.1, (hm1 c h).2.2⟩
    · exact ⟨(hm2 c h).1, fun hmem => (hm2 c h).2.1 (hg1 _ hmem), (hm2 c h).2.2⟩

theorem createChunkIfUnique_none_or (st : ChunkerState) (content : Str) (pos : ℕ) :
    createChunkIfUnique st content pos = (none, st) ∨
      ∃ c, createChunkIfUnique st content pos =
          (some c, ⟨c.contentHash :: st.seenContentHashes⟩) ∧
        c.contentHash ∉ st.seenContentHashes ∧
        c.contentHash = EnhancedChunker.hashContent c.content := by
  unfold createChunkIfUnique
  by_cases he : (trimStr content).isEmpty
  · left; simp [he]
  · by_cases hs : EnhancedChunker.hashContent (trimStr content) ∈ st.seenContentHashes
    · left; simp [he, hs]
    · right
      refine ⟨⟨trimStr content, none, none,
          strContains (trimStr content) ['`', '`', '`'] ||
            strContains (trimStr content) [' ', ' ', ' ', ' '] ||
            strContains (trimStr content) ['\t'],
          pos, EnhancedChunker.hashContent (trimStr content)⟩, ?_, hs, rfl⟩
      simp [he, hs]

theorem flushCurrent_run {st0 : ChunkerState} {acc : SemAcc}
    (h : ChunkRun st0 acc.chunks acc.st) :
    ChunkRun st0 (flushCurrent acc).chunks (flushCurrent acc).st := by
  rcases createChunkIfUnique_none_or acc.st acc.current acc.position with
    hc | ⟨c, hc, hnotin, hhash⟩
  · unfold flushCurrent
    rw [hc]
    exact h
  · unfold flushCurrent
    rw [hc]
    refine ChunkRun.comp h ⟨by simp, ?_, ?_⟩
    · intro c' hc'
      have : c' = c := by simpa using hc'
      subst this
      exact ⟨List.mem_cons_self _ _, hnotin, hhash⟩
    · intro x hx
      exact List.mem_cons_of_mem _ hx

theorem semAppend_run {st0 : ChunkerState} {acc : SemAcc} (p : Str) (mx : ℕ)
    (h : ChunkRun st0 acc.chunks acc.st) :
    ChunkRun st0 (semAppend acc p mx).chunks (semAppend acc p mx).st := by
  unfold semAppend
  split
  · exact flushCurrent_run h
  · exact h

theorem semStep_run {st0 : ChunkerState} {acc : SemAcc} (mx mn : ℕ) (p : Str)
    (h : ChunkRun st0 acc.chunks acc.st) :
    ChunkRun st0 (semStep mx mn acc p).chunks (semStep mx mn acc p).st := by
  unfold semStep
  split
  · exact h
  · apply semAppend_run
    split
    · exact flushCurrent_run h
    · exact h

theorem foldl_semStep_run {st0 : ChunkerState} (mx mn : ℕ) :
    ∀ (ps : List Str) (acc : SemAcc), ChunkRun st0 acc.chunks acc.st →
      ChunkRun st0 ((ps.foldl (semStep mx mn) acc)).chunks
        ((ps.foldl (semStep mx mn) acc)).st := by
  intro ps
  induction ps with
  | nil => intro acc h; exact h
  | cons p t ih => intro acc h; exact ih _ (semStep_run mx mn p h)

theorem chunkTextSemantic_run (st : ChunkerState) (text : Str) (mx mn : ℕ) :
    ChunkRun st (EnhancedChunker.chunkTextSemantic st text mx mn).1
      (EnhancedChunker.chunkTextSemantic st text mx mn).2 := by
  unfold EnhancedChunker.chunkTextSemantic chunkFinish
  have hacc := foldl_semStep_run mx mn (splitBlank text)
    { chunks := [], current := [], position := 0, st := st } (ChunkRun.refl st)
  split
  · exact flushCurrent_run hacc
  · exact hacc

theorem chunkCalls_run (st : ChunkerState) :
    ∀ calls : List (Str × ℕ × ℕ),
      ChunkRun st (chunkCalls st calls).1 (chunkCalls st calls).2 := by
  intro calls
  induction calls generalizing st with
  | nil => exact ChunkRun.refl st
  | cons c rest ih =>
    obtain ⟨t, mx, mn⟩ := c
    exact ChunkRun.comp (chunkTextSemantic_run st t mx mn) (ih _)

/-- C4, amended.  The `EnhancedChunker` deduplicates on the hash of the
*trimmed* chunk content (no lowercasing, no whitespace normalisation): over
any sequence of `chunk_text` calls against one chunker instance, the hashes
actually used - each the hash of the emitted chunk's own content - are
pairwise distinct, and a chunk whose content hash is already in the seen-set
(including hashes seeded from prior sessions) is not emitted.  (The
`TextChunker`, by contrast, does hash the lowercase whitespace-normalised
content, and the same argument gives the claim as stated for it.) -/
theorem enhancedChunker_dedup (st0 : ChunkerState) (calls : List (Str × ℕ × ℕ)) :
    ((chunkCalls st0 calls).1.map (fun c => c.contentHash)).Nodup ∧
      ∀ c ∈ (chunkCalls st0 calls).1,
        c.contentHash ∉ st0.seenContentHashes ∧
          c.contentHash = EnhancedChunker.hashContent c.content := by
  obtain ⟨hn, hm, _⟩ := chunkCalls_run st0 calls
  exact ⟨hn, fun c hc => ⟨(hm c hc).2.1, (hm c hc).2.2⟩⟩

/-- The string "Hello World". -/
def helloUpper : Str := ['H', 'e', 'l', 'l', 'o', ' ', 'W', 'o', 'r', 'l', 'd']

/-- The string "hello world". -/
def helloLower : Str := ['h', 'e', 'l', 'l', 'o', ' ', 'w', 'o', 'r', 'l', 'd']

/-- C4, counterexample.  One `EnhancedChunker` instance (semantic strategy,
`max_size = 1` so every paragraph flushes) emits "Hello World" and then also
emits "hello world": its dedup hash is computed on the raw trimmed content,
not on the lowercase whitespace-normalised content, and the two emitted
chunks have *equal* lowercase whitespace-normalised hashes (computed here by
the very `calculate_content_hash` normalisation the claim describes). -/
theorem enhancedChunker_hashes_raw_content :
    ((EnhancedChunker.chunkTextSemantic ⟨[]⟩ helloUpper 1 0).1.map (fun c => c.content)
        = [helloUpper]) ∧
      ((EnhancedChunker.chunkTextSemantic
          (EnhancedChunker.chunkTextSemantic ⟨[]⟩ helloUpper 1 0).2 helloLower 1 0).1.map
            (fun c => c.content) = [helloLower]) ∧
      TextChunker.calculateContentHash helloUpper
        = TextChunker.calculateContentHash helloLower := by
  refine ⟨by decide, by decide, by decide⟩

/-- `CrawlMode` from `src/crawler/types.rs` (`Section` is `sectionCrawl`
because `section` is a Lean keyword). -/
inductive CrawlMode where
  | singlePage
  | sectionCrawl
  | fullDocs
  deriving DecidableEq, Repr

/-- `UrlPatterns` from `src/crawler/types.rs` (`include` is a Lean keyword,
hence the `Pats` suffixes). -/
structure UrlPatterns where
  includePats : List Str
  excludePats : List Str
  deriving DecidableEq, Repr

/-- The fields of `CrawlConfig` (`src/crawler/types.rs` lines 21-32) that the
crawl-loop claims depend on.  `focus` is advisory and `concurrent_requests`,
`delay_ms`, `user_agent` only shape timing and headers, not the loop's
queueing or stopping behaviour. -/
structure CrawlConfig where
  startUrl : Str
  mode : CrawlMode
  maxPages : ℕ
  maxDepth : ℕ
  allowedDomains : List Str
  urlPatterns : UrlPatterns
  deriving DecidableEq, Repr

/-- `Crawler::should_crawl_url` (`src/crawler/engine.rs` lines 279-318):
exclude substrings veto; a non-empty include list must match; then the domain
check.  `hostOf` abstracts `Url::parse(url)?.host_str()` (the `url` crate is
external); `none` covers both a parse failure and a missing host, in which
case the source returns `false`. -/
def shouldCrawlUrl (cfg : CrawlConfig) (hostOf : Str → Option Str) (url : Str) : Bool :=
  let matchesInclude := cfg.urlPatterns.includePats.any (fun p => strContains url p)
  let matchesExclude := cfg.urlPatterns.excludePats.any (fun p => strContains url p)
  if matchesExclude then false
  else if ¬ cfg.urlPatterns.includePats.isEmpty ∧ matchesInclude = false then false
  else
    match hostOf url with
    | some host =>
      if cfg.allowedDomains.isEmpty then true else cfg.allowedDomains.contains host
    | none => false

/-- `Crawler::should_follow_links` (`src/crawler/engine.rs` lines 234-240). -/
def shouldFollowLinks (cfg : CrawlConfig) (currentDepth : ℕ) : Bool :=
  match cfg.mode with
  | CrawlMode.singlePage => false
  | CrawlMode.sectionCrawl => currentDepth == 0
  | CrawlMode.fullDocs => currentDepth < cfg.maxDepth

/-- The crawl state: FIFO queue of `(url, depth)`, visited set, the list of
successfully crawled URLs (the loop's return value), and the failure
counter. -/
structure CrawlState where
  queue : List (Str × ℕ)
  visited : List Str
  crawled : List Str
  failed : ℕ
  deriving DecidableEq, Repr

/-- `Crawler::extract_and_queue_urls` (`src/crawler/engine.rs` lines
242-277): each candidate link that passes `should_crawl_url` is pushed to the
back of the queue unless it is already visited or already queued. -/
def enqueueUrls (cfg : CrawlConfig) (hostOf : Str → Option Str) (s : CrawlState)
    (links : List Str) (depth : ℕ) : CrawlState :=
  links.foldl (fun s url =>
    if shouldCrawlUrl cfg hostOf url then
      if url ∈ s.visited ∨ url ∈ s.queue.map Prod.fst then s
      else { s with queue := s.queue ++ [(url, depth)] }
    else s) s

/-- One iteration of the `crawl` loop (`src/crawler/engine.rs` lines 86-141):
pop the front; break once `crawled_urls.len() >= max_pages`; skip entries
beyond `max_depth`; otherwise run `crawl_page` - which marks the URL visited
*before* fetching - and on success record the URL and queue links when the
mode allows.  `web url = some links` abstracts fetch + extract + per-page
ingest, `links` being the href candidates already resolved against the page
URL; `web url = none` is any per-URL failure (DNS, HTTP error, 429, parse
failure), which increments `failed`.  A `none` result means the loop exits. -/
def crawlStep (cfg : CrawlConfig) (hostOf : Str → Option Str)
    (web : Str → Option (List Str)) (s : CrawlState) : Option CrawlState :=
  match s.queue with
  | [] => none
  | (url, depth) :: rest =>
    if cfg.maxPages ≤ s.crawled.length then none
    else if cfg.maxDepth < depth then some { s with queue := rest }
    else
      match web url with
      | none =>
        some { s with
          queue := rest
          visited := url :: s.visited
          failed := s.failed + 1 }
      | some links =>
        if shouldFollowLinks cfg depth then
          some (enqueueUrls cfg hostOf
            { s with
              queue := rest
              visited := url :: s.visited
              crawled := s.crawled ++ [url] } links (depth + 1))
        else
          some { s with
            queue := rest
            visited := url :: s.visited
            crawled := s.crawled ++ [url] }

/-- The crawl loop as fuelled iteration of `crawlStep`. -/
def crawlIter (cfg : CrawlConfig) (hostOf : Str → Option Str)
    (web : Str → Option (List Str)) : ℕ → CrawlState → CrawlState
  | 0, s => s
  | fuel + 1, s =>
    match crawlStep cfg hostOf web s with
    | none => s
    | some s1 => crawlIter cfg hostOf web fuel s1

/-- The initial state of `Crawler::crawl` (lines 77-83): the queue holds the
start URL at depth 0. -/
def initCrawl (cfg : CrawlConfig) : CrawlState :=
  { queue := [(cfg.startUrl, 0)], visited := [], crawled := [], failed := 0 }

/-- The loop invariant: queued URLs are pairwise distinct and unvisited,
crawled URLs are pairwise distinct, visited, and at most `max_pages` many. -/
def CrawlInv (cfg : CrawlConfig) (s : CrawlState) : Prop :=
  (s.queue.map Prod.fst).Nodup ∧
    (∀ u ∈ s.queue.map Prod.fst, u ∉ s.visited) ∧
    s.crawled.Nodup ∧
    (∀ u ∈ s.crawled, u ∈ s.visited) ∧
    s.crawled.length ≤ cfg.maxPages

theorem enqueueUrls_cons (cfg : CrawlConfig) (hostOf : Str → Option Str)
    (s : CrawlState) (url : Str) (t : List Str) (depth : ℕ) :
    enqueueUrls cfg hostOf s (url :: t) depth =
      enqueueUrls cfg hostOf
        (if shouldCrawlUrl cfg hostOf url = true then
          if url ∈ s.visited ∨ url ∈ s.queue.map Prod.fst then s
          else { s with queue := s.queue ++ [(url, depth)] }
        else s) t depth := rfl

theorem enqueueUrls_inv (cfg : CrawlConfig) (hostOf : Str → Option Str)
    (depth : ℕ) :
    ∀ (links : List Str) (s : CrawlState),
      (s.queue.map Prod.fst).Nodup → (∀ u ∈ s.queue.map Prod.fst, u ∉ s.visited) →
      ((enqueueUrls cfg hostOf s links depth).queue.map Prod.fst).Nodup ∧
        (∀ u ∈ (enqueueUrls cfg hostOf s links depth).queue.map Prod.fst,
          u ∉ (enqueueUrls cfg hostOf s links depth).visited) ∧
        (enqueueUrls cfg hostOf s links depth).visited = s.visited ∧
        (enqueueUrls cfg hostOf s links depth).crawled = s.crawled := by
  intro links
  induction links with
  | nil => intro s h1 h2; exact ⟨h1, h2, rfl, rfl⟩
  | cons url t ih =>
    intro s h1 h2
    rw [enqueueUrls_cons]
    by_cases hcr : shouldCrawlUrl cfg hostOf url = true
    · by_cases hm : url ∈ s.visited ∨ url ∈ s.queue.map Prod.fst
      · rw [if_pos hcr, if_pos hm]
        exact ih s h1 h2
      · rw [if_pos hcr, if_neg hm]
        have hn1 : (({ s with queue := s.queue ++ [(url, depth)] } :
            CrawlState).queue.map Prod.fst).Nodup := by
          show ((s.queue ++ [(url, depth)]).map Prod.fst).Nodup
          rw [List.map_append]
          simp only [List.map_cons, List.map_nil]
          rw [List.nodup_append]
          refine ⟨h1, List.nodup_singleton url, ?_⟩
          intro a ha hb
          have : a = url := by simpa using hb
          subst this
          exact (not_or.mp hm).2 ha
        have hn2 : ∀ u ∈ (({ s with queue := s.queue ++ [(url, depth)] } :
            CrawlState).queue.map Prod.fst),
            u ∉ ({ s with queue := s.queue ++ [(url, depth)] } : CrawlState).visited := by
          intro u hu
          rw [show ({ s with queue := s.queue ++ [(url, depth)] } :
            CrawlState).queue = s.queue ++ [(url, depth)] from rfl, List.map_append] at hu
          rcases List.mem_append.mp hu with h | h
          · exact h2 u h
          · have : u = url := by simpa using h
            subst this
            exact (not_or.mp hm).1
        exact ih _ hn1 hn2
    · rw [if_neg hcr]
      exact ih s h1 h2

theorem crawlStep_inv (cfg : CrawlConfig) (hostOf : Str → Option Str)
    (web : Str → Option (List Str)) (s s1 : CrawlState)
    (hinv : CrawlInv cfg s) (hstep : crawlStep cfg hostOf web s = some s1) :
    CrawlInv cfg s1 := by
  obtain ⟨queue, visited, crawled, failed⟩ := s
  obtain ⟨hq, hqv, hc, hcv, hlen⟩ := hinv
  rcases queue with _ | ⟨⟨url, depth⟩, rest⟩
  · simp [crawlStep] at hstep
  · simp only [crawlStep] at hstep
    simp only [CrawlInv, List.map_cons] at hq hqv hc hcv hlen
    have hqrest : (rest.map Prod.fst).Nodup := hq.of_cons
    have hurl_notin_rest : url ∉ rest.map Prod.fst := (List.nodup_cons.mp hq).1
    have hqvrest : ∀ u ∈ rest.map Prod.fst, u ∉ visited := fun u hu =>
      hqv u (List.mem_cons_of_mem _ hu)
    have hurl_nv : url ∉ visited := hqv url (List.mem_cons_self _ _)
    by_cases hbreak : cfg.maxPages ≤ crawled.length
    · rw [if_pos hbreak] at hstep; cases hstep
    · rw [if_neg hbreak] at hstep
      by_cases hdepth : cfg.maxDepth < depth
      · rw [if_pos hdepth] at hstep
        cases hstep
        exact ⟨hqrest, hqvrest, hc, hcv, hlen⟩
      · rw [if_neg hdepth] at hstep
        rcases hweb : web url with _ | links
        · simp only [hweb] at hstep
          cases hstep
          refine ⟨hqrest, ?_, hc, ?_, hlen⟩
          · intro u hu
            simp only [List.mem_cons]
            push_neg
            exact ⟨fun he => hurl_notin_rest (he ▸ hu), hqvrest u hu⟩
          · intro u hu
            exact List.mem_cons_of_mem _ (hcv u hu)
        · simp only [hweb] at hstep
          have hmid : CrawlInv cfg
              { queue := rest
                visited := url :: visited
                crawled := crawled ++ [url]
                failed := failed } := by
            refine ⟨hqrest, ?_, ?_, ?_, ?_⟩
            · intro u hu
              simp only [List.mem_cons]
              push_neg
              exact ⟨fun he => hurl_notin_rest (he ▸ hu), hqvrest u hu⟩
            · rw [List.nodup_append]
              refine ⟨hc, List.nodup_singleton url, ?_⟩
              intro a ha hb
              have : a = url := by simpa using hb
              subst this
              exact hurl_nv (hcv a ha)
            · intro u hu
              rcases List.mem_append.mp hu with h | h
              · exact List.mem_cons_of_mem _ (hcv u h)
              · have : u = url := by simpa using h
                subst this
                exact List.mem_cons_self _ _
            · simp only [List.length_append, List.length_cons, List.length_nil]
              omega
          by_cases hfollow : shouldFollowLinks cfg depth = true
          · rw [if_pos hfollow] at hstep
            cases hstep
            obtain ⟨h1, h2, h3, h4, h5⟩ := hmid
            obtain ⟨g1, g2, g3, g4⟩ := enqueueUrls_inv cfg hostOf (depth + 1) links _ h1 h2
            exact ⟨g1, g2, by rw [g4]; exact h3, by rw [g4, g3]; exact h4, by rw [g4]; exact h5⟩
          · rw [if_neg hfollow] at hstep
            cases hstep
            exact hmid

/-- C8, confirmed.  For every crawl configuration and abstract web, in every
fuelled run from the initial state: the returned list of successfully
crawled URLs has no duplicates and length at most `max_pages`; and the loop
exits exactly when the queue is empty or the number of successfully crawled
pages has reached `max_pages` (caller cancellation, which the claim
parenthesises, is external to the loop). -/
theorem crawl_loop_spec (cfg : CrawlConfig) (hostOf : Str → Option Str)
    (web : Str → Option (List Str)) (fuel : ℕ) :
    (crawlIter cfg hostOf web fuel (initCrawl cfg)).crawled.Nodup ∧
      (crawlIter cfg hostOf web fuel (initCrawl cfg)).crawled.length ≤ cfg.maxPages ∧
      ∀ s : CrawlState, crawlStep cfg hostOf web s = none ↔
        (s.queue = [] ∨ cfg.maxPages ≤ s.crawled.length) := by
  have hinit : CrawlInv cfg (initCrawl cfg) := by
    refine ⟨by simp [initCrawl], by simp [initCrawl], by simp [initCrawl],
      by simp [initCrawl], by simp [initCrawl]⟩
  have hiter : ∀ (n : ℕ) (s : CrawlState), CrawlInv cfg s →
      CrawlInv cfg (crawlIter cfg hostOf web n s) := by
    intro n
    induction n with
    | zero => intro s h; exact h
    | succ m ih =>
      intro s h
      unfold crawlIter
      rcases hstep : crawlStep cfg hostOf web s with _ | s1
      · exact h
      · exact ih s1 (crawlStep_inv cfg hostOf web s s1 h hstep)
  obtain ⟨_, _, h3, _, h5⟩ := hiter fuel (initCrawl cfg) hinit
  refine ⟨h3, h5, ?_⟩
  intro s
  obtain ⟨queue, visited, crawled, failed⟩ := s
  rcases queue with _ | ⟨⟨url, depth⟩, rest⟩
  · simp [crawlStep]
  · constructor
    · intro hnone
      simp only [crawlStep] at hnone
      right
      by_cases hbreak : cfg.maxPages ≤ crawled.length
      · exact hbreak
      · exfalso
        rw [if_neg hbreak] at hnone
        by_cases hdepth : cfg.maxDepth < depth
        · rw [if_pos hdepth] at hnone; cases hnone
        · rw [if_neg hdepth] at hnone
          rcases hweb : web url with _ | links
          · simp only [hweb] at hnone
            cases hnone
          · simp only [hweb] at hnone
            by_cases hfollow : shouldFollowLinks cfg depth = true
            · rw [if_pos hfollow] at hnone; cases hnone
            · rw [if_neg hfollow] at hnone; cases hnone
    · intro hor
      rcases hor with hq | hmax
      · cases hq
      · simp only [crawlStep]
        rw [if_pos hmax]

/-- `SearchOptions` from `src/vectordb/search.rs` lines 9-31. -/
structure SearchOptions (α : Type) where
  limit : ℕ
  minScore : Option α
  sourceFilter : Option Str
  contentTypeFilter : Option ContentType

/-- `SearchResult` from `src/vectordb/search.rs` lines 33-38. -/
structure SearchResult (α : Type) where
  document : Document
  score : α

/-- The `zip`-`map`-`sum` dot product inside `cosine_similarity`. -/
def dotProduct [LinearOrderedField α] : List α → List α → α
  | x :: a, y :: b => x * y + dotProduct a b
  | _, _ => 0

/-- `a.iter().map(|x| x * x).sum()`. -/
def sumSquares [LinearOrderedField α] : List α → α
  | [] => 0
  | x :: a => x * x + sumSquares a

/-- `cosine_similarity` (`src/vectordb/search.rs` lines 66-80): 0 on length
mismatch or a zero norm, else `dot / (norm_a * norm_b)`.  The `f32::sqrt`
intrinsic is the parameter `sqrtFn` (instantiated with `Real.sqrt` for the
analytic claims). -/
def cosineSimilarity [LinearOrderedField α] (sqrtFn : α → α) (a b : List α) : α :=
  if a.length ≠ b.length then 0
  else
    if sqrtFn (sumSquares a) = 0 ∨ sqrtFn (sumSquares b) = 0 then 0
    else dotProduct a b / (sqrtFn (sumSquares a) * sqrtFn (sumSquares b))

/-- The source filter: `document.url.contains(source_filter)`. -/
def passesSource (sourceFilter : Option Str) (doc : Document) : Bool :=
  match sourceFilter with
  | some f => strContains doc.url f
  | none => true

/-- The content-type filter: equality with the requested variant. -/
def passesContentType (ctFilter : Option ContentType) (doc : Document) : Bool :=
  match ctFilter with
  | some ct => decide (doc.metadata.contentType = ct)
  | none => true

/-- The min-score filter: `score < min_score` skips the entry. -/
def passesMinScore [LinearOrderedField α] (minScore : Option α) (score : α) : Bool :=
  match minScore with
  | some m => decide (¬ score < m)
  | none => true

/-- `results.sort_by(|a, b| b.score.partial_cmp(&a.score).unwrap_or(Equal))`:
a stable sort placing greater scores first.  On the real/rational model the
comparator is a total preorder (no NaN), realised by a stable insertion
sort. -/
def sortByScoreDesc [LinearOrderedField α] (l : List (SearchResult α)) :
    List (SearchResult α) :=
  List.insertionSort (fun x y => y.score ≤ x.score) l

/-- Loop body of `search_documents` (`src/vectordb/search.rs` lines 91-129):
source / content-type filters, cosine scoring, min-score filter, push into
the collection (a `BinaryHeap` used only as a bag, modelled as a list), and
the trim back to `limit` once the collection exceeds `2 * limit`. -/
def searchStep [LinearOrderedField α] (sqrtFn : α → α) (q : List α)
    (opts : SearchOptions α) (heap : List (SearchResult α)) (e : VectorEntry α) :
    List (SearchResult α) :=
  if ¬ passesSource opts.sourceFilter e.document then heap
  else if ¬ passesContentType opts.contentTypeFilter e.document then heap
  else if ¬ passesMinScore opts.minScore (cosineSimilarity sqrtFn q e.vector) then heap
  else
    let heap1 : List (SearchResult α) :=
      ⟨e.document, cosineSimilarity sqrtFn q e.vector⟩ :: heap
    if opts.limit * 2 < heap1.length then (sortByScoreDesc heap1).take opts.limit
    else heap1

/-- `search_documents` (`src/vectordb/search.rs` lines 82-137): fold the loop
body over the entries, then sort by score descending and truncate to
`limit`. -/
def searchDocuments [LinearOrderedField α] (sqrtFn : α → α)
    (entries : List (VectorEntry α)) (q : List α) (opts : SearchOptions α) :
    List (SearchResult α) :=
  (sortByScoreDesc (entries.foldl (searchStep sqrtFn q opts) [])).take opts.limit

/-- An entry passes all three filters (the count `m` of the claim). -/
def passesFilters [LinearOrderedField α] (sqrtFn : α → α) (q : List α)
    (opts : SearchOptions α) (e : VectorEntry α) : Bool :=
  passesSource opts.sourceFilter e.document &&
    passesContentType opts.contentTypeFilter e.document &&
    passesMinScore opts.minScore (cosineSimilarity sqrtFn q e.vector)

theorem sumSquares_nonneg [LinearOrderedField α] :
    ∀ a : List α, 0 ≤ sumSquares a := by
  intro a
  induction a with
  | nil => simp [sumSquares]
  | cons x t ih =>
    have hx : 0 ≤ x * x := mul_self_nonneg x
    simpa [sumSquares] using add_nonneg hx ih

/-- Cauchy-Schwarz for the list dot product (any list lengths: the dot
product only sees the common prefix and extra squares are nonnegative). -/
theorem dotProduct_sq_le : ∀ a b : List ℝ,
    (dotProduct a b) ^ 2 ≤ sumSquares a * sumSquares b := by
  intro a
  induction a with
  | nil =>
    intro b
    simp [dotProduct, sumSquares]
  | cons x t ih =>
    intro b
    cases b with
    | nil =>
      simp only [dotProduct]
      have := mul_nonneg (sumSquares_nonneg (x :: t)) (sumSquares_nonneg ([] : List ℝ))
      simpa using this
    | cons y u =>
      have hD := ih u
      have hSa : (0 : ℝ) ≤ sumSquares t := sumSquares_nonneg t
      have hSb : (0 : ℝ) ≤ sumSquares u := sumSquares_nonneg u
      have habs : |dotProduct t u| ≤ Real.sqrt (sumSquares t) * Real.sqrt (sumSquares u) := by
        rw [← Real.sqrt_mul hSa]
        rw [Real.le_sqrt (abs_nonneg _) (mul_nonneg hSa hSb)]
        rw [sq_abs]
        exact hD
      have hgeom : 2 * (|x| * Real.sqrt (sumSquares u)) * (|y| * Real.sqrt (sumSquares t))
          ≤ (|x| * Real.sqrt (sumSquares u)) ^ 2 + (|y| * Real.sqrt (sumSquares t)) ^ 2 :=
        two_mul_le_add_sq _ _
      have hx2 : (|x| * Real.sqrt (sumSquares u)) ^ 2 = x * x * sumSquares u := by
        rw [mul_pow, sq_abs, Real.sq_sqrt hSb]
        ring
      have hy2 : (|y| * Real.sqrt (sumSquares t)) ^ 2 = y * y * sumSquares t := by
        rw [mul_pow, sq_abs, Real.sq_sqrt hSa]
        ring
      have hs1 : (0 : ℝ) ≤ Real.sqrt (sumSquares t) := Real.sqrt_nonneg _
      have hs2 : (0 : ℝ) ≤ Real.sqrt (sumSquares u) := Real.sqrt_nonneg _
      simp only [dotProduct, sumSquares]
      nlinarith [abs_nonneg (dotProduct t u), abs_nonneg x, abs_nonneg y,
        le_abs_self (dotProduct t u), neg_abs_le (dotProduct t u),
        le_abs_self (x * y), neg_abs_le (x * y), abs_mul x y,
        mul_nonneg (mul_nonneg (abs_nonneg x) (abs_nonneg y)) (abs_nonneg (dotProduct t u)),
        sq_nonneg (x * y - dotProduct t u), sq_nonneg (x * y + dotProduct t u)]

/-- Every cosine similarity of the model lies in [-1, 1]. -/
theorem cosineSimilarity_bounds (q v : List ℝ) :
    -1 ≤ cosineSimilarity Real.sqrt q v ∧ cosineSimilarity Real.sqrt q v ≤ 1 := by
  unfold cosineSimilarity
  split
  · norm_num
  · split
    · norm_num
    · rename_i hlen hnz
      push_neg at hnz
      obtain ⟨ha, hb⟩ := hnz
      have hSa : (0 : ℝ) ≤ sumSquares q := sumSquares_nonneg q
      have hSb : (0 : ℝ) ≤ sumSquares v := sumSquares_nonneg v
      have hapos : 0 < Real.sqrt (sumSquares q) :=
        lt_of_le_of_ne (Real.sqrt_nonneg _) (Ne.symm ha)
      have hbpos : 0 < Real.sqrt (sumSquares v) :=
        lt_of_le_of_ne (Real.sqrt_nonneg _) (Ne.symm hb)
      have hprod : 0 < Real.sqrt (sumSquares q) * Real.sqrt (sumSquares v) :=
        mul_pos hapos hbpos
      have habs : |dotProduct q v| ≤ Real.sqrt (sumSquares q) * Real.sqrt (sumSquares v) := by
        rw [← Real.sqrt_mul hSa]
        rw [Real.le_sqrt (abs_nonneg _) (mul_nonneg hSa hSb)]
        rw [sq_abs]
        exact dotProduct_sq_le q v
      constructor
      · rw [neg_le, ← neg_div]
        rw [div_le_one hprod]
        calc -dotProduct q v ≤ |dotProduct q v| := neg_le_abs _
        _ ≤ _ := habs
      · rw [div_le_one hprod]
        calc dotProduct q v ≤ |dotProduct q v| := le_abs_self _
        _ ≤ _ := habs

theorem sortByScoreDesc_length [LinearOrderedField α] (l : List (SearchResult α)) :
    (sortByScoreDesc l).length = l.length :=
  (List.perm_insertionSort _ l).length_eq

theorem mem_sortByScoreDesc [LinearOrderedField α] {l : List (SearchResult α)}
    {r : SearchResult α} (h : r ∈ sortByScoreDesc l) : r ∈ l :=
  (List.perm_insertionSort _ l).mem_iff.mp h

theorem sortByScoreDesc_sorted [LinearOrderedField α] (l : List (SearchResult α)) :
    (sortByScoreDesc l).Pairwise (fun a b => b.score ≤ a.score) := by
  haveI : IsTotal (SearchResult α) (fun a b => b.score ≤ a.score) :=
    ⟨fun a b => le_total b.score a.score⟩
  haveI : IsTrans (SearchResult α) (fun a b => b.score ≤ a.score) :=
    ⟨fun a b c hab hbc => le_trans hbc hab⟩
  exact List.sorted_insertionSort _ l

/-- The length invariant carried through the scan: the collection holds
either everything that passed so far, or at least `limit` elements while at
least `limit` have passed. -/
def goodLen (limit n len : ℕ) : Prop := len = n ∨ (limit ≤ len ∧ limit ≤ n)

theorem searchStep_goodLen [LinearOrderedField α] (sqrtFn : α → α) (q : List α)
    (opts : SearchOptions α) (heap : List (SearchResult α)) (e : VectorEntry α)
    (n : ℕ) (h : goodLen opts.limit n heap.length) :
    goodLen opts.limit (n + (if passesFilters sqrtFn q opts e then 1 else 0))
      ((searchStep sqrtFn q opts heap e).length) := by
  by_cases hA : passesSource opts.sourceFilter e.document = true
  · by_cases hB : passesContentType opts.contentTypeFilter e.document = true
    · by_cases hC : passesMinScore opts.minScore (cosineSimilarity sqrtFn q e.vector) = true
      · have hpass : passesFilters sqrtFn q opts e = true := by
          simp [passesFilters, hA, hB, hC]
        rw [hpass]
        simp only [searchStep, hA, hB, hC, not_true, if_false, if_neg (by simp : ¬ (¬ True)),
          if_true]
        by_cases htrim : opts.limit * 2 <
            ((⟨e.document, cosineSimilarity sqrtFn q e.vector⟩ : SearchResult α)
              :: heap).length
        · rw [if_pos htrim, List.length_take, sortByScoreDesc_length]
          simp only [List.length_cons] at htrim ⊢
          rcases h with h | ⟨h1, h2⟩
          · right
            constructor
            · omega
            · omega
          · right
            constructor
            · omega
            · omega
        · rw [if_neg htrim]
          simp only [List.length_cons]
          rcases h with h | ⟨h1, h2⟩
          · left; omega
          · right; omega
      · have hpass : passesFilters sqrtFn q opts e = false := by
          simp [passesFilters, hC]
        rw [hpass]
        simp only [searchStep, hC]
        simpa [hA, hB] using h
    · have hpass : passesFilters sqrtFn q opts e = false := by
        simp [passesFilters, hB]
      rw [hpass]
      simp only [searchStep, hB]
      simpa [hA] using h
  · have hpass : passesFilters sqrtFn q opts e = false := by
      simp [passesFilters, hA]
    rw [hpass]
    simp only [searchStep, hA]
    simpa using h

theorem searchFold_goodLen [LinearOrderedField α] (sqrtFn : α → α) (q : List α)
    (opts : SearchOptions α) :
    ∀ (entries : List (VectorEntry α)) (heap : List (SearchResult α)) (n : ℕ),
      goodLen opts.limit n heap.length →
      goodLen opts.limit (n + (entries.filter (passesFilters sqrtFn q opts)).length)
        ((entries.foldl (searchStep sqrtFn q opts) heap).length) := by
  intro entries
  induction entries with
  | nil => intro heap n h; simpa using h
  | cons e t ih =>
    intro heap n h
    have hstep := searchStep_goodLen sqrtFn q opts heap e n h
    have := ih (searchStep sqrtFn q opts heap e)
      (n + (if passesFilters sqrtFn q opts e then 1 else 0)) hstep
    rw [List.foldl_cons]
    by_cases hpass : passesFilters sqrtFn q opts e = true
    · rw [List.filter_cons_of_pos hpass]
      simp only [hpass, if_true] at this
      simp only [List.length_cons]
      rcases this with h1 | h1
      · left; omega
      · right; omega
    · rw [List.filter_cons_of_neg (by simpa using hpass)]
      simpa [hpass] using this

theorem mem_searchStep [LinearOrderedField α] {sqrtFn : α → α} {q : List α}
    {opts : SearchOptions α} {heap : List (SearchResult α)} {e : VectorEntry α}
    {r : SearchResult α} (h : r ∈ searchStep sqrtFn q opts heap e) :
    r ∈ heap ∨ r.score = cosineSimilarity sqrtFn q e.vector := by
  unfold searchStep at h
  split at h
  · exact Or.inl h
  · split at h
    · exact Or.inl h
    · split at h
      · exact Or.inl h
      · dsimp only [] at h
        split at h
        · have h1 := mem_sortByScoreDesc ((List.take_sublist _ _).subset h)
          rcases List.mem_cons.mp h1 with h2 | h2
          · right; rw [h2]
          · exact Or.inl h2
        · rcases List.mem_cons.mp h with h2 | h2
          · right; rw [h2]
          · exact Or.inl h2

theorem mem_searchFold [LinearOrderedField α] {sqrtFn : α → α} {q : List α}
    {opts : SearchOptions α} :
    ∀ {entries : List (VectorEntry α)} {heap : List (SearchResult α)}
      {r : SearchResult α}, r ∈ entries.foldl (searchStep sqrtFn q opts) heap →
      r ∈ heap ∨ ∃ e, e ∈ entries ∧ r.score = cosineSimilarity sqrtFn q e.vector := by
  intro entries
  induction entries with
  | nil => intro heap r h; exact Or.inl h
  | cons e t ih =>
    intro heap r h
    rw [List.foldl_cons] at h
    rcases ih h with h1 | ⟨e1, he1, hs1⟩
    · rcases mem_searchStep h1 with h2 | h2
      · exact Or.inl h2
      · exact Or.inr ⟨e, List.mem_cons_self _ _, h2⟩
    · exact Or.inr ⟨e1, List.mem_cons_of_mem _ he1, hs1⟩

/-- C5, confirmed.  For a store of `n` entries and a vector-only search with
`limit = k ≤ n`: the result has exactly `min(k, m)` elements, where `m` is
the number of entries passing the source / content-type / min-score filters;
the result is sorted non-increasingly by score; and every score is a cosine
similarity lying in [-1, 1]. -/
theorem search_spec (entries : List (VectorEntry ℝ)) (q : List ℝ)
    (opts : SearchOptions ℝ) (hk : opts.limit ≤ entries.length) :
    (searchDocuments Real.sqrt entries q opts).length
        = min opts.limit ((entries.filter (passesFilters Real.sqrt q opts)).length) ∧
      (searchDocuments Real.sqrt entries q opts).Pairwise (fun a b => b.score ≤ a.score) ∧
      ∀ r ∈ searchDocuments Real.sqrt entries q opts, -1 ≤ r.score ∧ r.score ≤ 1 := by
  have hfold := searchFold_goodLen Real.sqrt q opts entries [] 0 (Or.inl rfl)
  refine ⟨?_, ?_, ?_⟩
  · unfold searchDocuments
    rw [List.length_take, sortByScoreDesc_length]
    rcases hfold with h | ⟨h1, h2⟩
    · omega
    · omega
  · exact List.Pairwise.sublist (List.take_sublist _ _) (sortByScoreDesc_sorted _)
  · intro r hr
    unfold searchDocuments at hr
    have hr1 := mem_sortByScoreDesc ((List.take_sublist _ _).subset hr)
    rcases mem_searchFold hr1 with h | ⟨e, _, hscore⟩
    · cases h
    · rw [hscore]
      exact cosineSimilarity_bounds q e.vector

/-- A one-entry real store for the C5 witness. -/
def entryW : VectorEntry ℝ :=
  { id := ['w'], document := docA, vector := [1], indexedAt := 0 }

/-- C5 witness: the theorem applied to a one-entry store with `k = n = 1`
and no filters. -/
theorem search_spec_witness :
    (searchDocuments Real.sqrt [entryW] [1] ⟨1, none, none, none⟩).length
        = min 1 (([entryW].filter (passesFilters Real.sqrt [1] ⟨1, none, none, none⟩)).length) ∧
      (searchDocuments Real.sqrt [entryW] [1] ⟨1, none, none, none⟩).Pairwise
        (fun a b => b.score ≤ a.score) ∧
      ∀ r ∈ searchDocuments Real.sqrt [entryW] [1] ⟨1, none, none, none⟩,
        -1 ≤ r.score ∧ r.score ≤ 1 :=
  search_spec [entryW] [1] ⟨1, none, none, none⟩ (by decide)

/-- `KeywordSearchParams` from `src/vectordb/hybrid_search.rs` lines 39-51. -/
structure KeywordSearchParams (α : Type) where
  k1 : α
  b : α

/-- `HybridSearchOptions` from `src/vectordb/hybrid_search.rs` lines 12-36. -/
structure HybridSearchOptions (α : Type) where
  base : SearchOptions α
  enableHybrid : Bool
  vectorWeight : α
  keywordWeight : α
  keywordParams : KeywordSearchParams α

/-- `HybridSearchResult` from `src/vectordb/hybrid_search.rs` lines 53-64. -/
structure HybridSearchResult (α : Type) where
  document : Document
  vectorScore : α
  keywordScore : α
  combinedScore : α

/-- Association-list lookup (model of `HashMap::get`). -/
def lookupA {β : Type} (k : Str) : List (Str × β) → Option β
  | [] => none
  | (k1, v) :: t => if k1 = k then some v else lookupA k t

/-- Association-list insert (model of `HashMap::insert`: replace in place or
append; iteration order of the Rust `HashMap` is unspecified and modelled as
insertion order). -/
def insertA {β : Type} (k : Str) (v : β) : List (Str × β) → List (Str × β)
  | [] => [(k, v)]
  | (k1, v1) :: t => if k1 = k then (k1, v) :: t else (k1, v1) :: insertA k v t

/-- `*map.entry(k).or_insert(0) += 1`. -/
def bumpA (k : Str) (m : List (Str × ℕ)) : List (Str × ℕ) :=
  insertA k ((lookupA k m).getD 0 + 1) m

/-- `trim_matches(|c| !c.is_alphanumeric())`: strip non-alphanumerics from
both ends. -/
def trimNonAlnum (w : Str) : Str :=
  ((w.dropWhile (fun c => ¬ c.isAlphanum)).reverse.dropWhile
    (fun c => ¬ c.isAlphanum)).reverse

/-- `BM25Index::tokenize` (`src/vectordb/hybrid_search.rs` lines 193-201):
lowercase, split on whitespace, strip surrounding non-alphanumerics, drop
empties.  (`to_lowercase` / `is_alphanumeric` are Unicode in Rust; the ASCII
`Char.toLower` / `Char.isAlphanum` agree on the inputs considered here.) -/
def tokenize (text : Str) : List Str :=
  ((splitWs (text.map Char.toLower)).map trimNonAlnum).filter (fun s => ¬ s.isEmpty)

/-- `BM25Index` from `src/vectordb/hybrid_search.rs` lines 89-103. -/
structure BM25Index (α : Type) where
  docFreq : List (Str × ℕ)
  termFreq : List (Str × List (Str × ℕ))
  docLengths : List (Str × ℕ)
  avgDocLength : α
  docCount : ℕ
  params : KeywordSearchParams α

/-- `BM25Index::new` (lines 107-116). -/
def BM25Index.new [LinearOrderedField α] (params : KeywordSearchParams α) : BM25Index α :=
  { docFreq := [], termFreq := [], docLengths := [], avgDocLength := 0,
    docCount := 0, params := params }

/-- `BM25Index::add_document` (lines 119-144): record length and term
frequencies, bump document frequencies, recompute the average length. -/
def BM25Index.addDocument [LinearOrderedField α] (idx : BM25Index α) (docId : Str)
    (content : Str) : BM25Index α :=
  let tokens := tokenize content
  let docLengths1 := insertA docId tokens.length idx.docLengths
  let docTermFreq := tokens.foldl (fun m token => bumpA token m) []
  { docFreq := docTermFreq.foldl (fun m p => bumpA p.1 m) idx.docFreq
    termFreq := insertA docId docTermFreq idx.termFreq
    docLengths := docLengths1
    avgDocLength := ((docLengths1.map Prod.snd).sum : α) / ((idx.docCount + 1 : ℕ) : α)
    docCount := idx.docCount + 1
    params := idx.params }

/-- Sort `(id, score)` pairs by score descending (stable). -/
def sortBySndDesc [LinearOrderedField α] (l : List (Str × α)) : List (Str × α) :=
  List.insertionSort (fun x y => y.2 ≤ x.2) l

/-- `BM25Index::search` (lines 147-191): BM25-score every indexed document
against the query tokens (`lnFn` is the `f32::ln` intrinsic), keep strictly
positive scores, sort descending, truncate. -/
def BM25Index.search [LinearOrderedField α] (lnFn : α → α) (idx : BM25Index α)
    (query : Str) (limit : ℕ) : List (Str × α) :=
  let queryTokens := tokenize query
  let scores := idx.termFreq.foldl (fun acc p =>
    let docLength : α := (((lookupA p.1 idx.docLengths).getD 0 : ℕ) : α)
    let score := queryTokens.foldl (fun score queryTerm =>
      match lookupA queryTerm p.2 with
      | some termFreq =>
        let df : α := (((lookupA queryTerm idx.docFreq).getD 0 : ℕ) : α)
        let idf := lnFn (((idx.docCount : α) - df + 1/2) / (df + 1/2))
        let tf : α := (termFreq : α)
        score + idf * ((tf * (idx.params.k1 + 1)) /
          (tf + idx.params.k1 *
            (1 - idx.params.b + idx.params.b * (docLength / idx.avgDocLength))))
      | none => score) (0 : α)
    if 0 < score then insertA p.1 score acc else acc) []
  (sortBySndDesc scores).take limit

/-- Sort hybrid results by combined score descending (stable; the arbitrary
`BinaryHeap::into_iter` order feeding the Rust sort is modelled as the
model's list order). -/
def sortByCombinedDesc [LinearOrderedField α] (l : List (HybridSearchResult α)) :
    List (HybridSearchResult α) :=
  List.insertionSort (fun x y => y.combinedScore ≤ x.combinedScore) l

/-- `BinaryHeap::pop` for `HybridSearchResult`, whose `Ord` (lines 81-87)
orders *ascending* by combined score - it is not reversed the way
`SearchResult`'s is in `search.rs` - so the max-heap pop removes an element
with the GREATEST combined score (the first maximal one here; ties are
resolved arbitrarily by the real heap). -/
def popMaxCombined [LinearOrderedField α] :
    List (HybridSearchResult α) → List (HybridSearchResult α)
  | [] => []
  | x :: t =>
    if t.all (fun y => decide (y.combinedScore ≤ x.combinedScore)) then t
    else x :: popMaxCombined t

/-- `hybrid_search` (`src/vectordb/hybrid_search.rs` lines 221-371): the
vector-only fallback; the BM25 index built from all entries; top `3*limit`
vector results and top `3*limit` BM25 results; score fusion with the
`k/(1+k)` normalisation and the weighted sum; the keyword-only pass with the
base filters; and the final heap phase - push each combined result and pop
whenever the heap exceeds `2*limit` - followed by a descending sort and
truncation to `limit`.  (`storage.get_document` + the `find().unwrap()` on
the entries are one lookup here; the unwrap cannot fail because every BM25
id comes from an entry.) -/
def hybridSearch [LinearOrderedField α] (sqrtFn lnFn : α → α)
    (entries : List (VectorEntry α)) (queryEmbedding : List α) (queryText : Str)
    (options : HybridSearchOptions α) : List (HybridSearchResult α) :=
  if ¬ options.enableHybrid then
    (searchDocuments sqrtFn entries queryEmbedding options.base).map
      (fun r => ⟨r.document, r.score, 0, r.score⟩)
  else
    let bm25 := entries.foldl
      (fun idx e => BM25Index.addDocument idx e.id e.document.content)
      (BM25Index.new options.keywordParams)
    let vectorLimit := options.base.limit * 3
    let vectorResults := searchDocuments sqrtFn entries queryEmbedding
      { options.base with limit := vectorLimit }
    let keywordScores := BM25Index.search lnFn bm25 queryText vectorLimit
    let combined1 := vectorResults.map (fun vr =>
      let keywordScore := (lookupA vr.document.id keywordScores).getD 0
      let normalizedKw := min (keywordScore / (1 + keywordScore)) 1
      ⟨vr.document, vr.score, normalizedKw,
        options.vectorWeight * vr.score + options.keywordWeight * normalizedKw⟩)
    let combined2 := keywordScores.foldl (fun acc p =>
      if acc.any (fun r => decide (r.document.id = p.1)) then acc
      else
        match entries.find? (fun e => decide (e.id = p.1)) with
        | some entry =>
          if ¬ passesSource options.base.sourceFilter entry.document then acc
          else if ¬ passesContentType options.base.contentTypeFilter entry.document then acc
          else if ¬ passesMinScore options.base.minScore
              (cosineSimilarity sqrtFn queryEmbedding entry.vector) then acc
          else
            acc ++ [⟨entry.document,
              cosineSimilarity sqrtFn queryEmbedding entry.vector,
              min (p.2 / (1 + p.2)) 1,
              options.vectorWeight * cosineSimilarity sqrtFn queryEmbedding entry.vector +
                options.keywordWeight * min (p.2 / (1 + p.2)) 1⟩]
        | none => acc) combined1
    let heap := combined2.foldl (fun h r =>
      if options.base.limit * 2 < (r :: h).length then popMaxCombined (r :: h)
      else r :: h) []
    (sortByCombinedDesc heap).take options.base.limit

/-- A concrete document with empty content (no BM25 tokens), parametrised by
its one-character id. -/
def docHyb (c : Char) : Document :=
  { id := [c], content := [], url := ['u'], title := none,
    docSection := none, metadata := plainMeta }

/-- A three-entry rational store: vectors [1,0], [0,1], [-1,0], whose cosine
similarities against the query [1,0] are exactly 1, 0 and -1 (all `f32`
arithmetic on these values is exact, so the rational run mirrors the float
run). -/
def entries3 : List (VectorEntry ℚ) :=
  [ { id := ['a'], document := docHyb 'a', vector := [1, 0], indexedAt := 0 },
    { id := ['b'], document := docHyb 'b', vector := [0, 1], indexedAt := 0 },
    { id := ['c'], document := docHyb 'c', vector := [-1, 0], indexedAt := 0 } ]

/-- Hybrid options: limit 1, hybrid enabled, the default weights 0.7 / 0.3
and BM25 parameters k1 = 1.2, b = 0.75. -/
def opts2 : HybridSearchOptions ℚ :=
  { base := ⟨1, none, none, none⟩, enableHybrid := true,
    vectorWeight := 7/10, keywordWeight := 3/10, keywordParams := ⟨6/5, 3/4⟩ }

theorem ratSqrtOne : Rat.sqrt 1 = 1 := by
  unfold Rat.sqrt
  norm_num

theorem c2cosA : cosineSimilarity Rat.sqrt [(1 : ℚ), 0] [1, 0] = 1 := by
  unfold cosineSimilarity
  norm_num [sumSquares, dotProduct, ratSqrtOne]

theorem c2cosB : cosineSimilarity Rat.sqrt [(1 : ℚ), 0] [0, 1] = 0 := by
  unfold cosineSimilarity
  norm_num [sumSquares, dotProduct, ratSqrtOne]

theorem c2cosC : cosineSimilarity Rat.sqrt [(1 : ℚ), 0] [-1, 0] = -1 := by
  unfold cosineSimilarity
  norm_num [sumSquares, dotProduct, ratSqrtOne]

theorem c2vres3 :
    searchDocuments Rat.sqrt entries3 [1, 0] ⟨3, none, none, none⟩ =
      [⟨docHyb 'a', 1⟩, ⟨docHyb 'b', 0⟩, ⟨docHyb 'c', -1⟩] := by
  norm_num [searchDocuments, entries3, searchStep, passesSource, passesContentType,
    passesMinScore, c2cosA, c2cosB, c2cosC, sortByScoreDesc, List.insertionSort,
    List.orderedInsert, List.foldl_cons, List.foldl_nil]

theorem c2vres1 :
    searchDocuments Rat.sqrt entries3 [1, 0] ⟨1, none, none, none⟩ =
      [⟨docHyb 'a', 1⟩] := by
  norm_num [searchDocuments, entries3, searchStep, passesSource, passesContentType,
    passesMinScore, c2cosA, c2cosB, c2cosC, sortByScoreDesc, List.insertionSort,
    List.orderedInsert, List.foldl_cons, List.foldl_nil]

theorem c2bm25 (lnFn : ℚ → ℚ) :
    BM25Index.search lnFn
      (entries3.foldl
        (fun idx e => BM25Index.addDocument idx e.id e.document.content)
        (BM25Index.new (⟨6/5, 3/4⟩ : KeywordSearchParams ℚ))) [] 3 = [] := by
  norm_num [BM25Index.search, BM25Index.addDocument, BM25Index.new, entries3, docHyb,
    tokenize, splitWs, splitWsGo, trimNonAlnum, insertA, lookupA, bumpA, sortBySndDesc,
    List.insertionSort, List.foldl_cons, List.foldl_nil]

/-- C2, failing run.  With three admissible candidates of combined scores
0.7, 0 and -0.7 and `limit = 1`, the final selection pushes all three into a
`BinaryHeap` and pops once the heap exceeds `2 * limit` - but
`HybridSearchResult`'s `Ord` is *ascending* by combined score (not reversed
like `SearchResult`'s), so the pop evicts the BEST candidate (id "a",
combined 0.7).  The call returns the id-"b" result with combined score 0
instead of the top candidate; vector-only `search_documents` on the same
store (whose trim correctly keeps the top) does return id "a" with score 1.
The universally quantified `lnFn` shows that the `f32::ln` intrinsic is
never reached on this input (the empty query has no tokens). -/
theorem hybridSearch_drops_best (lnFn : ℚ → ℚ) :
    ((hybridSearch Rat.sqrt lnFn entries3 [1, 0] [] opts2).map
        (fun r => (r.document.id, r.combinedScore)) = [(['b'], 0)]) ∧
      ((searchDocuments Rat.sqrt entries3 [1, 0] ⟨1, none, none, none⟩).map
        (fun r => (r.document.id, r.score)) = [(['a'], 1)]) := by
  constructor
  · norm_num [hybridSearch, opts2, c2vres3, c2bm25, lookupA, min_def, docHyb,
      popMaxCombined, sortByCombinedDesc, List.insertionSort, List.orderedInsert,
      List.foldl_cons, List.foldl_nil, List.all_cons, List.all_nil,
      Bool.and_eq_true, decide_eq_true_eq]
  · norm_num [c2vres1, docHyb]

end CodeRag
